import Mathlib

/-!
Verification of the MRI preprocessing pipeline (`preprocessing/prisma_preproc.py`)
against its natural-language specification.

The script builds a nipype workflow; the generic pipeline-engine concepts of the
specification (pipeline graph, validation, fan-out expansion, scheduler, failure
propagation) live in the external workflow engine, so those parts are modelled
from the spec's own words; the concrete pipeline-construction logic (filename
substitutions, plugin-argument parsing, encoding directions and readout times,
directory setup, warpfield selection) is translated directly from the source.
-/

set_option autoImplicit false

namespace PrismaPreproc

/-- Modelled from the spec: the error kinds of §7 that `validate()` and fan-out
expansion can report (`CycleError`, `UnboundInputError`, `FanOutArityError`). -/
inductive PipeError
  | cycleError
  | unboundInputError
  | fanOutArityError
  deriving DecidableEq, Repr

/-- Modelled from the spec: the combination rule carried by a Connection
(§3, §4.4): `direct`, `broadcast`, `index_select(i)`, `zip`, `cross`. -/
inductive Combination
  | direct
  | broadcast
  | indexSelect (i : Nat)
  | zip
  | cross
  deriving DecidableEq, Repr

/-- Modelled from the spec: a Connection `(source_stage, source_slot) →
(target_stage, target_slot)` with a combination rule (§3). Stages are
identified by their `id`. -/
structure Connection where
  source : Nat
  sourceSlot : String
  target : Nat
  targetSlot : String
  combination : Combination
  deriving DecidableEq, Repr

/-- Modelled from the spec: an Operation Descriptor — named input slots, named
output slots, fixed parameters (§3). Only the slot names matter for the
engine's validation. -/
structure OperationDescriptor where
  name : String
  input_slots : List String
  output_slots : List String
  deriving DecidableEq, Repr

/-- Modelled from the spec: a Stage — an `id` unique within the graph, its
operation, and the input slots bound to literal values (slots bound to a
Connection are recorded in the graph's connection set) (§3). -/
structure Stage where
  id : Nat
  operation : OperationDescriptor
  literals : List (String × String)
  deriving DecidableEq, Repr

/-- Modelled from the spec: the Pipeline Graph — a set of stages plus the
Connections between them (§3). -/
structure Graph where
  stages : List Stage
  connections : List Connection
  deriving DecidableEq, Repr

/-- The stage ids of a graph, in declaration order. -/
def stageIds (g : Graph) : List Nat :=
  g.stages.map Stage.id

/-- The dependency edges derived from the Connections: one `(source, target)`
pair per Connection. -/
def edgeList (g : Graph) : List (Nat × Nat) :=
  g.connections.map (fun c => (c.source, c.target))

/-- The connection-derived dependency relation between stage ids. -/
def edgeRel (g : Graph) (a b : Nat) : Prop :=
  (a, b) ∈ edgeList g

instance (g : Graph) (a b : Nat) : Decidable (edgeRel g a b) := by
  unfold edgeRel; infer_instance

/-- The graph contains a cycle: some stage reaches itself through a nonempty
chain of Connections. -/
def HasCycle (g : Graph) : Prop :=
  ∃ s, Relation.TransGen (edgeRel g) s s

/-- The connection-derived dependency relation is acyclic. -/
def Acyclic (g : Graph) : Prop :=
  ¬ HasCycle g

/-- An input slot of a stage is bound: it has a literal value or some
Connection targets it (§3, §4.2). -/
def slotBound (g : Graph) (st : Stage) (slot : String) : Bool :=
  st.literals.any (fun p => p.1 == slot) ||
    g.connections.any (fun c => c.target == st.id && c.targetSlot == slot)

/-- Every declared input slot of every stage is bound. -/
def allBound (g : Graph) : Bool :=
  g.stages.all (fun st => st.operation.input_slots.all (fun slot => slotBound g st slot))

/-- Well-formedness from §3: Connections exist only between stages in the same
graph, and stage ids are unique within the graph. -/
def WellFormed (g : Graph) : Prop :=
  (∀ c ∈ g.connections, c.source ∈ stageIds g ∧ c.target ∈ stageIds g) ∧
    (stageIds g).Nodup

instance (g : Graph) : Decidable (WellFormed g) := by
  unfold WellFormed; infer_instance

/-- `v` has no incoming edge whose source is still in `remaining`. -/
def noIncoming (edges : List (Nat × Nat)) (remaining : List Nat) (v : Nat) : Bool :=
  edges.all (fun e => !(e.2 == v && remaining.contains e.1))

/-- Modelled from the spec: Kahn-style topological sorting (§4.5). Repeatedly
pick the first remaining stage (in declaration order, the deterministic
tie-break) with no unprocessed predecessor; fail with `none` when stages
remain but each has an unprocessed predecessor (a cycle). -/
def kahn (edges : List (Nat × Nat)) : Nat → List Nat → Option (List Nat)
  | 0, remaining => if remaining.isEmpty then some [] else none
  | fuel + 1, remaining =>
    match remaining.find? (noIncoming edges remaining) with
    | none => if remaining.isEmpty then some [] else none
    | some v => (kahn edges fuel (remaining.erase v)).map (fun order => v :: order)

/-- Modelled from the spec: the execution order computed by the Scheduler for a
graph — a topological order of the stage ids, ties broken by declaration
order (§4.5). -/
def topoOrder (g : Graph) : Option (List Nat) :=
  kahn (edgeList g) (stageIds g).length (stageIds g)

/-- Modelled from the spec: the pluggable execution backends (§4.5). -/
inductive Backend
  | sequential
  | localParallel
  | remoteBatch
  deriving DecidableEq, Repr

/-- Modelled from the spec: the Scheduler computes the same topological order
whatever backend executes it (§4.5); the backend only changes how stages are
dispatched, never their order. -/
def schedule (_ : Backend) (g : Graph) : Option (List Nat) :=
  topoOrder g

/-- Modelled from the spec: `validate()` (§4.2, §7): report `CycleError` when
the connection-derived dependency relation has a cycle (detected by the
failure of topological sorting) and `UnboundInputError` when some declared
input slot of some stage lacks both a literal and a Connection. An empty
report is success. `validate` is a pure function of the graph, hence
idempotent and insensitive to construction order. -/
def validate (g : Graph) : List PipeError :=
  (if (topoOrder g).isNone then [PipeError.cycleError] else []) ++
    (if allBound g then [] else [PipeError.unboundInputError])

/-- The stage states of the Scheduler's lifecycle (§3, §4.5); `pending` stands
for the not-yet-processed states. -/
inductive StageState
  | pending
  | completed
  | failed
  | blocked
  deriving DecidableEq, Repr

/-- Point update of a state assignment. -/
def updState (st : Nat → StageState) (v : Nat) (s : StageState) : Nat → StageState :=
  fun w => if w = v then s else st w

/-- The direct upstream dependencies of stage `v`: sources of the Connections
targeting `v`. -/
def depsOf (g : Graph) (v : Nat) : List Nat :=
  (g.connections.filter (fun c => c.target == v)).map (fun c => c.source)

/-- Modelled from the spec: processing one stage (§4.5, §7). A stage whose
upstream dependencies are all `Completed` is dispatched and either completes
or fails (`fails` says which stages' external operations fail); a stage with
a non-`Completed` dependency is marked `Blocked` and never dispatched. -/
def stepState (g : Graph) (fails : Nat → Bool) (st : Nat → StageState) (v : Nat) : StageState :=
  if (depsOf g v).all (fun u => st u == StageState.completed) then
    (if fails v then StageState.failed else StageState.completed)
  else StageState.blocked

/-- Modelled from the spec: executing the stages of a computed order, in
order, updating each stage's state once (§4.5). -/
def runOrder (g : Graph) (fails : Nat → Bool) : List Nat → (Nat → StageState) → Nat → StageState
  | [], st => st
  | v :: rest, st => runOrder g fails rest (updState st v (stepState g fails st v))

/-- Modelled from the spec: the final stage states of a run of the validated
graph, processed in the Scheduler's topological order. -/
def finalStates (g : Graph) (fails : Nat → Bool) : Nat → StageState :=
  match topoOrder g with
  | some order => runOrder g fails order (fun _ => StageState.pending)
  | none => fun _ => StageState.pending

/-- Modelled from the spec: `nested=false` fan-out expansion (§4.3). All
iterated slots must resolve to lists of one common length `N`; element `k`
of the expansion takes element `k` from every iterated list (element-wise
zip); mismatched lengths fail with `FanOutArityError`. -/
def zipExpansion {α : Type} [Inhabited α] (iters : List (List α)) :
    Except PipeError (List (List α)) :=
  match iters with
  | [] => Except.ok []
  | l :: ls =>
    if ls.all (fun m => m.length == l.length) then
      Except.ok ((List.range l.length).map (fun k => (l :: ls).map (fun m => m.getD k default)))
    else Except.error PipeError.fanOutArityError

/-- Modelled from the spec: `nested=true` fan-out expansion (§4.3): the full
cross-product over the iterated slots' cartesian index space, ordered
lexicographically over the declared `iter_slots` order. -/
def crossExpansion {α : Type} : List (List α) → List (List α)
  | [] => [[]]
  | l :: ls => l.flatMap (fun x => (crossExpansion ls).map (fun ys => x :: ys))

/-- Python's `'%02d' % n`: the decimal digits of `n`, left-padded with zeros
to width two. -/
def pad2 (n : Nat) : String :=
  if n < 10 then "0" ++ toString n else toString n

/-- The DataSink filename substitutions of `create_preproc_workflow` (source
lines 246-248): the artifact of fan-out element `r` (0-based) of the
`merge_epis` stage is renamed with the 1-based run index `r + 1`. -/
def substitutions (nEpis : Nat) : List (String × String) :=
  (List.range nEpis).map (fun r =>
    ("_merge_epis" ++ toString r ++ "/timeseries_corrected.nii.gz",
      "timeseries_corrected_run" ++ pad2 (r + 1) ++ ".nii.gz"))

/-- The backend keyword-argument values after coercion (source lines 103-109):
integer if `int()` succeeds, else float if `float()` succeeds, else the text
itself. Float literals are modelled as exact rationals. -/
inductive PVal
  | int (z : Int)
  | float (q : Rat)
  | str (s : String)
  deriving DecidableEq, Repr

/-- Python's `str.split(sep)` for a one-character separator: splitting the
empty string gives one empty part. -/
def splitOnChar (c : Char) : List Char → List (List Char)
  | [] => [[]]
  | x :: rest =>
    if x = c then [] :: splitOnChar c rest
    else
      match splitOnChar c rest with
      | [] => [[x]]
      | h :: t => (x :: h) :: t

/-- The numeric value of a digit string (most significant first); empty gives 0. -/
def natOfDigits (cs : List Char) : Nat :=
  cs.foldl (fun acc c => 10 * acc + (c.toNat - 48)) 0

/-- A nonempty all-digit string's value, `none` otherwise. -/
def digitsToNat? (cs : List Char) : Option Nat :=
  if cs ≠ [] ∧ cs.all Char.isDigit then some (natOfDigits cs) else none

/-- Python's `int()` on the argument strings the script passes: optional sign
followed by decimal digits (the exotic `int()` inputs — whitespace,
underscores, other bases — do not occur in `key:value` plugin arguments). -/
def parseIntPy (s : String) : Option Int :=
  match s.data with
  | '-' :: rest => (digitsToNat? rest).map (fun n => -(n : Int))
  | '+' :: rest => (digitsToNat? rest).map (fun n => (n : Int))
  | cs => (digitsToNat? cs).map (fun n => (n : Int))

/-- The value of `[digits] '.' [digits]` or plain digits, as an exact
rational: the digits around the point read as one integer, divided by ten to
the number of fractional digits. -/
def floatCore (cs : List Char) : Option Rat :=
  match splitOnChar '.' cs with
  | [intPart, fracPart] =>
    if (intPart ++ fracPart) ≠ [] ∧ (intPart ++ fracPart).all Char.isDigit then
      some (mkRat (natOfDigits (intPart ++ fracPart)) (10 ^ fracPart.length))
    else none
  | [onlyInt] => (digitsToNat? onlyInt).map (fun n => mkRat n 1)
  | _ => none

/-- Python's `float()` on decimal literals: optional sign, digits with at most
one decimal point (exponent notation does not occur in plugin arguments). -/
def parseFloatPy (s : String) : Option Rat :=
  match s.data with
  | '-' :: rest => (floatCore rest).map (fun q => -q)
  | '+' :: rest => floatCore rest
  | cs => floatCore cs

/-- The value coercion of source lines 103-109: try `int()`, then `float()`,
else keep the text. -/
def coerceValue (s : String) : PVal :=
  match parseIntPy s with
  | some z => PVal.int z
  | none =>
    match parseFloatPy s with
    | some q => PVal.float q
    | none => PVal.str s

/-- One `key:value` entry (source lines 100-102): split on `:`, demanding
exactly one colon, and coerce the value. -/
def parseOneArg (arg : List Char) : Option (String × PVal) :=
  match splitOnChar ':' arg with
  | [k, v] => some (String.mk k, coerceValue (String.mk v))
  | _ => none

/-- The parsing loop of source lines 99-109: each entry in turn, failing (the
raised `Exception`) on any malformed entry. -/
def parseArgsList : List (List Char) → Option (List (String × PVal))
  | [] => some []
  | arg :: rest =>
    match parseOneArg arg, parseArgsList rest with
    | some kv, some l => some (kv :: l)
    | _, _ => none

/-- The `plugin_args` parser of `main` (source lines 97-109): split the flat
string on commas, then each entry on its colon, coercing each value. -/
def parsePluginArgs (s : String) : Option (List (String × PVal)) :=
  parseArgsList (splitOnChar ',' s.data)

/-- A `key:value[,key:value...]` string from its entries. -/
def renderArgs : List (String × String) → List Char
  | [] => []
  | [p] => p.1.data ++ ':' :: p.2.data
  | p :: ps => p.1.data ++ ':' :: p.2.data ++ ',' :: renderArgs ps

/-- The warpfield selector of the source (line 228): `get_warp = lambda
warpfields: warpfields[0]`, modelled totally. -/
def get_warp {α : Type} (warpfields : List α) : Option α :=
  warpfields[0]?

/-- Modelled from the spec: delivering a list-valued FanOutStage output into a
scalar input slot of a plain Stage (§4.4): the narrowing is whatever
combination rule the Connection declares; `index_select(i)` picks element
`i`, `direct` passes a scalar through, and no other rule delivers a scalar. -/
def deliverScalar {α : Type} (c : Connection) (xs : List α) : Option α :=
  match c.combination with
  | Combination.indexSelect i => xs[i]?
  | Combination.direct =>
    match xs with
    | [x] => some x
    | _ => none
  | _ => none

/-- `np.repeat` on a list: each element repeated `k` times, in order. -/
def npRepeat {α : Type} (l : List α) (k : Nat) : List α :=
  l.flatMap (List.replicate k)

/-- The encoding directions passed to TOPUP (source line 169):
`np.repeat([PE_dim, PE_dim + '-'], 3)`. -/
def encoding_direction (peDim : String) : List String :=
  npRepeat [peDim, peDim ++ "-"] 3

/-- The readout times passed to TOPUP (source line 171). -/
def readout_times : List Nat :=
  [1, 1, 1, 1, 1, 1]

/-- Working-directory resolution of `main` (source lines 90-93): the supplied
working directory, defaulting to the output directory. -/
def resolveWorkingDir (outdir : String) (workingDir : Option String) : String :=
  match workingDir with
  | some w => w
  | none => outdir

/-- `os.makedirs` guarded by `op.exists` (source lines 87-88, 94-95), over a
filesystem modelled as the set of existing directories. -/
def ensureDir (fs : List String) (d : String) : List String :=
  if d ∈ fs then fs else d :: fs

/-- The directory setup `main` performs before constructing the workflow:
create the output directory if absent, resolve the working directory,
create it if absent (source lines 86-95). -/
def setupDirs (fs : List String) (outdir : String) (workingDir : Option String) : List String :=
  ensureDir (ensureDir fs outdir) (resolveWorkingDir outdir workingDir)

/-- An example pipeline graph: a producer stage `0` with no inputs feeding the
single input slot of stage `1`. -/
def gEx : Graph :=
  { stages :=
      [{ id := 0, operation := { name := "realign", input_slots := [], output_slots := ["out_file"] },
         literals := [] },
       { id := 1, operation := { name := "merge", input_slots := ["in_files"], output_slots := ["merged_file"] },
         literals := [] }],
    connections :=
      [{ source := 0, sourceSlot := "out_file", target := 1, targetSlot := "in_files",
         combination := Combination.direct }] }

/-- An example failure indicator: the external operation of stage `0` fails. -/
def failsStage0 : Nat → Bool :=
  fun v => v == 0

/-- The Connection the source expresses as `get_warp` (lines 228-235): the
list-valued `out_warps` output of the distortion-correction stage feeding
the scalar `field_file` input, narrowed by an explicit `index_select(0)`. -/
def warpConnection : Connection :=
  { source := 0, sourceSlot := "out_warps", target := 1, targetSlot := "field_file",
    combination := Combination.indexSelect 0 }

lemma noIncoming_iff (edges : List (Nat × Nat)) (remaining : List Nat) (v : Nat) :
    noIncoming edges remaining v = true ↔
      ∀ a b, (a, b) ∈ edges → b = v → a ∉ remaining := by
  simp [noIncoming]
  constructor
  · intro h a b hab hbv
    rcases h a b hab with hc | hc
    · exact absurd hbv hc
    · exact hc
  · intro h a b hab
    by_cases hbv : b = v
    · exact Or.inr (h a b hab hbv)
    · exact Or.inl hbv

lemma kahn_zero (edges : List (Nat × Nat)) (remaining : List Nat) :
    kahn edges 0 remaining = if remaining.isEmpty then some [] else none := rfl

lemma kahn_succ_of_find_none (edges : List (Nat × Nat)) (fuel : Nat) (remaining : List Nat)
    (hf : remaining.find? (noIncoming edges remaining) = none) :
    kahn edges (fuel + 1) remaining = if remaining.isEmpty then some [] else none := by
  conv_lhs => rw [kahn]
  rw [hf]

lemma kahn_succ_of_find_some (edges : List (Nat × Nat)) (fuel : Nat) (remaining : List Nat)
    (v : Nat) (hf : remaining.find? (noIncoming edges remaining) = some v) :
    kahn edges (fuel + 1) remaining =
      (kahn edges fuel (remaining.erase v)).map (fun order => v :: order) := by
  conv_lhs => rw [kahn]
  rw [hf]

/-- A successful Kahn run orders exactly the remaining stages. -/
lemma kahn_perm (edges : List (Nat × Nat)) :
    ∀ (fuel : Nat) (remaining order : List Nat),
      kahn edges fuel remaining = some order → order.Perm remaining := by
  intro fuel
  induction fuel with
  | zero =>
    intro remaining order h
    rw [kahn_zero] at h
    cases remaining with
    | nil => simp at h; simp [← h]
    | cons a l => simp at h
  | succ n ih =>
    intro remaining order h
    cases hf : remaining.find? (noIncoming edges remaining) with
    | none =>
      rw [kahn_succ_of_find_none edges n remaining hf] at h
      cases remaining with
      | nil => simp at h; simp [← h]
      | cons a l => simp at h
    | some v =>
      rw [kahn_succ_of_find_some edges n remaining v hf] at h
      cases hrec : kahn edges n (remaining.erase v) with
      | none => rw [hrec] at h; simp at h
      | some tail =>
        rw [hrec] at h
        simp at h
        have hv : v ∈ remaining := List.mem_of_find?_eq_some hf
        have htail := ih (remaining.erase v) tail hrec
        rw [← h]
        exact (List.Perm.cons v htail).trans (List.perm_cons_erase hv).symm

/-- A successful Kahn run places every edge's source strictly before its
target (for edges between remaining stages). -/
lemma kahn_respects (edges : List (Nat × Nat)) :
    ∀ (fuel : Nat) (remaining order : List Nat),
      kahn edges fuel remaining = some order → remaining.Nodup →
      ∀ a b, (a, b) ∈ edges → a ∈ remaining → b ∈ remaining →
        order.indexOf a < order.indexOf b := by
  intro fuel
  induction fuel with
  | zero =>
    intro remaining order h _ a b _ ha _
    rw [kahn_zero] at h
    cases remaining with
    | nil => exact absurd ha (List.not_mem_nil a)
    | cons x l => simp at h
  | succ n ih =>
    intro remaining order h hnd a b hab ha hb
    cases hf : remaining.find? (noIncoming edges remaining) with
    | none =>
      rw [kahn_succ_of_find_none edges n remaining hf] at h
      cases remaining with
      | nil => exact absurd ha (List.not_mem_nil a)
      | cons x l => simp at h
    | some v =>
      rw [kahn_succ_of_find_some edges n remaining v hf] at h
      cases hrec : kahn edges n (remaining.erase v) with
      | none => rw [hrec] at h; simp at h
      | some tail =>
        rw [hrec] at h
        simp at h
        have hv : v ∈ remaining := List.mem_of_find?_eq_some hf
        have hno : ∀ x y, (x, y) ∈ edges → y = v → x ∉ remaining :=
          (noIncoming_iff edges remaining v).mp (List.find?_some hf)
        have hbv : b ≠ v := by
          intro hbv
          exact hno a b hab hbv ha
        subst h
        by_cases hav : a = v
        · subst hav
          rw [List.indexOf_cons_self]
          rw [List.indexOf_cons_ne tail (fun hh => hbv hh.symm)]
          exact Nat.succ_pos _
        · have ha' : a ∈ remaining.erase v := (List.mem_erase_of_ne hav).mpr ha
          have hb' : b ∈ remaining.erase v := (List.mem_erase_of_ne hbv).mpr hb
          have := ih (remaining.erase v) tail hrec (hnd.erase v) a b hab ha' hb'
          rw [List.indexOf_cons_ne tail (fun hh => hav hh.symm),
            List.indexOf_cons_ne tail (fun hh => hbv hh.symm)]
          exact Nat.succ_lt_succ this

/-- Pigeonhole: in a finite set in which every element has a predecessor
inside the set, some element lies on a cycle. -/
lemma cycle_of_all_have_pred {E : Nat → Nat → Prop} (S : List Nat) (hne : S ≠ [])
    (h : ∀ v ∈ S, ∃ u ∈ S, E u v) : ∃ s, Relation.TransGen E s s := by
  have h' : ∀ v, ∃ u, v ∈ S → (u ∈ S ∧ E u v) := by
    intro v
    by_cases hv : v ∈ S
    · obtain ⟨u, hu, hE⟩ := h v hv
      exact ⟨u, fun _ => ⟨hu, hE⟩⟩
    · exact ⟨0, fun hv' => absurd hv' hv⟩
  choose gp hgp using h'
  obtain ⟨v0, hv0⟩ := List.exists_mem_of_ne_nil S hne
  set f : Nat → Nat := fun n => gp^[n] v0 with hf
  have hmem : ∀ n, f n ∈ S := by
    intro n
    induction n with
    | zero => exact hv0
    | succ m ihm =>
      have : f (m + 1) = gp (f m) := Function.iterate_succ_apply' gp m v0
      rw [this]
      exact (hgp (f m) ihm).1
  have hstep : ∀ n, E (f (n + 1)) (f n) := by
    intro n
    have : f (n + 1) = gp (f n) := Function.iterate_succ_apply' gp n v0
    rw [this]
    exact (hgp (f n) (hmem n)).2
  have hchain : ∀ i k, Relation.TransGen E (f (i + k + 1)) (f i) := by
    intro i k
    induction k with
    | zero => exact Relation.TransGen.single (hstep i)
    | succ m ihm =>
      have hs : E (f (i + m + 2)) (f (i + m + 1)) := hstep (i + m + 1)
      have : i + (m + 1) + 1 = i + m + 2 := by omega
      rw [this]
      exact Relation.TransGen.head hs ihm
  classical
  set T := S.toFinset with hT
  have hcard : Fintype.card {x // x ∈ T} = T.card := Fintype.card_coe T
  have hlt : Fintype.card {x // x ∈ T} < Fintype.card (Fin (T.card + 1)) := by
    rw [hcard, Fintype.card_fin]
    omega
  obtain ⟨i, j, hij, hfij⟩ :=
    Fintype.exists_ne_map_eq_of_card_lt
      (fun i : Fin (T.card + 1) => (⟨f i, List.mem_toFinset.mpr (hmem i)⟩ : {x // x ∈ T})) hlt
  have hfeq : f i = f j := congrArg Subtype.val hfij
  rcases Nat.lt_or_ge i.val j.val with hlt' | hge
  · refine ⟨f i, ?_⟩
    have : (i : Nat) + (j.val - i.val - 1) + 1 = j.val := by omega
    have hc := hchain i.val (j.val - i.val - 1)
    rw [this, ← hfeq] at hc
    exact hc
  · have hlt'' : j.val < i.val := by
      rcases Nat.lt_or_ge j.val i.val with hh | hh
      · exact hh
      · exact absurd (Fin.ext (Nat.le_antisymm hh hge)) hij
    refine ⟨f j, ?_⟩
    have : (j : Nat) + (i.val - j.val - 1) + 1 = i.val := by omega
    have hc := hchain j.val (i.val - j.val - 1)
    rw [this, hfeq] at hc
    exact hc

/-- When Kahn fails with enough fuel, the edge relation has a cycle. -/
lemma kahn_none_cycle (edges : List (Nat × Nat)) :
    ∀ (fuel : Nat) (remaining : List Nat), remaining.length ≤ fuel →
      kahn edges fuel remaining = none →
      ∃ s, Relation.TransGen (fun a b => (a, b) ∈ edges) s s := by
  intro fuel
  induction fuel with
  | zero =>
    intro remaining hlen h
    have : remaining = [] := List.eq_nil_of_length_eq_zero (Nat.le_zero.mp hlen)
    subst this
    simp [kahn] at h
  | succ n ih =>
    intro remaining hlen h
    cases hf : remaining.find? (noIncoming edges remaining) with
    | none =>
      rw [kahn_succ_of_find_none edges n remaining hf] at h
      have hne : remaining ≠ [] := by
        intro hnil
        subst hnil
        simp at h
      have hall : ∀ v ∈ remaining, ¬ noIncoming edges remaining v = true :=
        fun v hv => List.find?_eq_none.mp hf v hv
      have hpred : ∀ v ∈ remaining, ∃ u ∈ remaining, (u, v) ∈ edges := by
        intro v hv
        have hnv := hall v hv
        rw [noIncoming_iff] at hnv
        push_neg at hnv
        obtain ⟨a, b, hab, hbv, hmem⟩ := hnv
        subst hbv
        exact ⟨a, hmem, hab⟩
      exact cycle_of_all_have_pred remaining hne hpred
    | some v =>
      rw [kahn_succ_of_find_some edges n remaining v hf] at h
      cases hrec : kahn edges n (remaining.erase v) with
      | none =>
        have hv : v ∈ remaining := List.mem_of_find?_eq_some hf
        have hlen' : (remaining.erase v).length ≤ n := by
          rw [List.length_erase_of_mem hv]
          omega
        exact ih (remaining.erase v) hlen' hrec
      | some tail => rw [hrec] at h; simp at h

lemma edge_mem_stageIds (g : Graph) (hwf : WellFormed g) {a b : Nat}
    (h : (a, b) ∈ edgeList g) : a ∈ stageIds g ∧ b ∈ stageIds g := by
  obtain ⟨c, hc, hcab⟩ := List.mem_map.mp h
  obtain ⟨h1, h2⟩ := hwf.1 c hc
  have hs : c.source = a := congrArg Prod.fst hcab
  have ht : c.target = b := congrArg Prod.snd hcab
  exact ⟨hs ▸ h1, ht ▸ h2⟩

/-- A transitive dependency chain forces strictly increasing positions in a
successful topological order. -/
lemma transGen_indexOf_lt (g : Graph) (hwf : WellFormed g) (order : List Nat)
    (horder : topoOrder g = some order) :
    ∀ a b, Relation.TransGen (edgeRel g) a b → order.indexOf a < order.indexOf b := by
  have hstep : ∀ a b, edgeRel g a b → order.indexOf a < order.indexOf b := by
    intro a b hab
    have hmem := edge_mem_stageIds g hwf hab
    exact kahn_respects (edgeList g) (stageIds g).length (stageIds g) order horder
      hwf.2 a b hab hmem.1 hmem.2
  intro a b hab
  induction hab with
  | single h => exact hstep _ _ h
  | tail _ h ih => exact Nat.lt_trans ih (hstep _ _ h)

/-- A graph whose topological sort succeeds is acyclic. -/
lemma acyclic_of_topoOrder_isSome (g : Graph) (hwf : WellFormed g)
    (h : (topoOrder g).isSome) : Acyclic g := by
  obtain ⟨order, horder⟩ := Option.isSome_iff_exists.mp h
  rintro ⟨s, hs⟩
  exact Nat.lt_irrefl _ (transGen_indexOf_lt g hwf order horder s s hs)

/-- An acyclic graph's topological sort succeeds. -/
lemma topoOrder_isSome_of_acyclic (g : Graph) (h : Acyclic g) :
    (topoOrder g).isSome := by
  cases horder : topoOrder g with
  | some order => rfl
  | none =>
    exfalso
    apply h
    have := kahn_none_cycle (edgeList g) (stageIds g).length (stageIds g)
      (Nat.le_refl _) horder
    exact this

/-- A graph with no Connections is scheduled in declaration order. -/
lemma kahn_no_edges : ∀ (fuel : Nat) (remaining : List Nat),
    remaining.length ≤ fuel → kahn [] fuel remaining = some remaining := by
  intro fuel
  induction fuel with
  | zero =>
    intro remaining hlen
    have : remaining = [] := List.eq_nil_of_length_eq_zero (Nat.le_zero.mp hlen)
    subst this
    rfl
  | succ n ih =>
    intro remaining hlen
    cases remaining with
    | nil => rw [kahn_succ_of_find_none [] n [] (by rfl)]; rfl
    | cons x l =>
      have hno : noIncoming [] (x :: l) x = true := by simp [noIncoming]
      have hf : (x :: l).find? (noIncoming [] (x :: l)) = some x := by
        rw [List.find?_cons_of_pos _ hno]
      rw [kahn_succ_of_find_some [] n (x :: l) x hf]
      have herase : (x :: l).erase x = l := by simp
      rw [herase, ih l (by simpa using Nat.le_of_succ_le_succ hlen)]
      rfl

lemma runOrder_append (g : Graph) (fails : Nat → Bool) (l₁ l₂ : List Nat)
    (st : Nat → StageState) :
    runOrder g fails (l₁ ++ l₂) st = runOrder g fails l₂ (runOrder g fails l₁ st) := by
  induction l₁ generalizing st with
  | nil => rfl
  | cons v rest ih => simp [runOrder, ih]

lemma runOrder_not_mem (g : Graph) (fails : Nat → Bool) (l : List Nat)
    (st : Nat → StageState) (v : Nat) (hv : v ∉ l) :
    runOrder g fails l st v = st v := by
  induction l generalizing st with
  | nil => rfl
  | cons w rest ih =>
    have hvw : v ≠ w := fun h => hv (h ▸ List.mem_cons_self w rest)
    have hvr : v ∉ rest := fun h => hv (List.mem_cons_of_mem w h)
    simp [runOrder, ih _ hvr, updState, hvw]

/-- A stage with a direct dependency that did not complete is marked
`Blocked` when its turn comes, and stays so. -/
lemma runOrder_blocked (g : Graph) (fails : Nat → Bool) (init : Nat → StageState)
    (l₁ l₂ : List Nat) (t u : Nat) (hnd : (l₁ ++ t :: l₂).Nodup) (hu : u ∈ l₁)
    (hdep : u ∈ depsOf g t)
    (hbad : runOrder g fails (l₁ ++ t :: l₂) init u ≠ StageState.completed) :
    runOrder g fails (l₁ ++ t :: l₂) init t = StageState.blocked := by
  obtain ⟨hnd1, hnd2, hdisj⟩ := List.nodup_append.mp hnd
  have hut : u ≠ t := by
    intro h
    exact hdisj hu (h ▸ List.mem_cons_self t l₂)
  have hul2 : u ∉ l₂ := fun h => hdisj hu (List.mem_cons_of_mem t h)
  have htl2 : t ∉ l₂ := (List.nodup_cons.mp hnd2).1
  rw [runOrder_append] at hbad ⊢
  set st₁ := runOrder g fails l₁ init with hst₁
  rw [show runOrder g fails (t :: l₂) st₁ =
      runOrder g fails l₂ (updState st₁ t (stepState g fails st₁ t)) from rfl] at hbad ⊢
  rw [runOrder_not_mem g fails l₂ _ u hul2, updState, if_neg hut] at hbad
  rw [runOrder_not_mem g fails l₂ _ t htl2]
  have hupd : updState st₁ t (stepState g fails st₁ t) t = stepState g fails st₁ t := by
    simp [updState]
  rw [hupd]
  unfold stepState
  cases hall : (depsOf g t).all (fun w => st₁ w == StageState.completed) with
  | false => simp
  | true =>
    exfalso
    have := List.all_eq_true.mp hall u hdep
    exact hbad (beq_iff_eq.mp this)

/-- Along a valid schedule, a direct successor of a non-completed stage ends
the run `Blocked`. -/
lemma final_blocked_of_dep_not_completed (g : Graph) (hwf : WellFormed g)
    (order : List Nat) (horder : topoOrder g = some order) (fails : Nat → Bool)
    {u t : Nat} (hedge : edgeRel g u t)
    (hbad : finalStates g fails u ≠ StageState.completed) :
    finalStates g fails t = StageState.blocked := by
  have hperm := kahn_perm (edgeList g) (stageIds g).length (stageIds g) order horder
  have hnd : order.Nodup := hperm.nodup_iff.mpr hwf.2
  have hmem := edge_mem_stageIds g hwf hedge
  have hto : t ∈ order := hperm.mem_iff.mpr hmem.2
  have huo : u ∈ order := hperm.mem_iff.mpr hmem.1
  have hidx : order.indexOf u < order.indexOf t :=
    kahn_respects (edgeList g) (stageIds g).length (stageIds g) order horder
      hwf.2 u t hedge hmem.1 hmem.2
  obtain ⟨l₁, l₂, hsplit⟩ := List.append_of_mem hto
  have hfin : finalStates g fails = runOrder g fails order (fun _ => StageState.pending) := by
    unfold finalStates
    rw [horder]
  have htl1 : t ∉ l₁ := by
    intro htl1
    have := List.nodup_append.mp (hsplit ▸ hnd)
    exact this.2.2 htl1 (List.mem_cons_self t l₂)
  have hul1 : u ∈ l₁ := by
    have hut : u ≠ t := by
      intro h
      rw [h] at hidx
      exact Nat.lt_irrefl _ hidx
    rcases List.mem_append.mp (hsplit ▸ huo) with h1 | h2
    · exact h1
    · exfalso
      have hul2 : u ∈ l₂ := by
        rcases List.mem_cons.mp h2 with h | h
        · exact absurd h hut
        · exact h
      by_cases hul1 : u ∈ l₁
      · exact absurd hul1 (fun hh =>
          (List.nodup_append.mp (hsplit ▸ hnd)).2.2 hh h2)
      · have hidxt : order.indexOf t = l₁.length := by
          rw [hsplit, List.indexOf_append_of_not_mem htl1, List.indexOf_cons_self]
          omega
        have hidxu : l₁.length ≤ order.indexOf u := by
          rw [hsplit, List.indexOf_append_of_not_mem hul1]
          exact Nat.le_add_right _ _
        rw [hidxt] at hidx
        exact Nat.not_le_of_lt hidx hidxu
  have hdep : u ∈ depsOf g t := by
    obtain ⟨c, hc, hcab⟩ := List.mem_map.mp hedge
    have hsrc : c.source = u := congrArg Prod.fst hcab
    have htgt : c.target = t := congrArg Prod.snd hcab
    unfold depsOf
    refine List.mem_map.mpr ⟨c, ?_, hsrc⟩
    refine List.mem_filter.mpr ⟨hc, ?_⟩
    simp [htgt]
  rw [hfin, hsplit] at hbad ⊢
  exact runOrder_blocked g fails (fun _ => StageState.pending) l₁ l₂ t u
    (hsplit ▸ hnd) hul1 hdep hbad

lemma crossExpansion_pair {α : Type} (xs ys : List α) :
    crossExpansion [xs, ys] = xs.flatMap (fun x => ys.map (fun y => [x, y])) := by
  have h1 : crossExpansion [ys] = ys.map (fun y => [y]) := by
    show ys.flatMap (fun y => (crossExpansion []).map (fun zs => y :: zs)) = _
    show ys.flatMap (fun y => [[y]]) = _
    exact (List.map_eq_flatMap _ ys).symm
  show xs.flatMap (fun x => (crossExpansion [ys]).map (fun zs => x :: zs)) = _
  rw [h1]
  congr 1
  funext x
  rw [List.map_map]
  rfl

lemma crossExpansion_pair_length {α : Type} (xs ys : List α) :
    (crossExpansion [xs, ys]).length = xs.length * ys.length := by
  rw [crossExpansion_pair, List.length_flatMap]
  have h : (List.map (List.length ∘ fun x => List.map (fun y => [x, y]) ys) xs) =
      xs.map (fun _ => ys.length) := by
    congr 1
    funext x
    show (List.map (fun y => [x, y]) ys).length = ys.length
    exact List.length_map ys _
  rw [h, List.map_const', List.sum_const_nat]

lemma flatMap_pair_getD {α : Type} [Inhabited α] (ys : List α) :
    ∀ (xs : List α) (i j : Nat), i < xs.length → j < ys.length →
      (xs.flatMap (fun x => ys.map (fun y => [x, y]))).getD (i * ys.length + j) [] =
        [xs.getD i default, ys.getD j default] := by
  intro xs
  induction xs with
  | nil => intro i j hi _; simp at hi
  | cons x rest ih =>
    intro i j hi hj
    rw [show ((x :: rest).flatMap (fun x => ys.map (fun y => [x, y]))) =
        ys.map (fun y => [x, y]) ++ rest.flatMap (fun x => ys.map (fun y => [x, y])) from rfl]
    cases i with
    | zero =>
      rw [Nat.zero_mul, Nat.zero_add]
      rw [List.getD_append _ _ _ _ (by rw [List.length_map]; exact hj)]
      rw [List.getD_eq_getElem _ _ (by rw [List.length_map]; exact hj)]
      rw [List.getElem_map]
      rw [List.getD_cons_zero, List.getD_eq_getElem _ _ hj]
    | succ i' =>
      have harith : (i' + 1) * ys.length + j = ys.length + (i' * ys.length + j) := by
        rw [Nat.succ_mul]
        omega
      rw [harith,
        List.getD_append_right _ _ _ _ (by rw [List.length_map]; exact Nat.le_add_right _ _)]
      rw [List.length_map, Nat.add_sub_cancel_left, List.getD_cons_succ]
      exact ih i' j (Nat.lt_of_succ_lt_succ hi) hj

lemma splitOnChar_of_not_mem (c : Char) (cs : List Char) (h : c ∉ cs) :
    splitOnChar c cs = [cs] := by
  induction cs with
  | nil => rfl
  | cons x rest ih =>
    have hxc : x ≠ c := fun hh => h (hh ▸ List.mem_cons_self x rest)
    have hcr : c ∉ rest := fun hh => h (List.mem_cons_of_mem x hh)
    simp [splitOnChar, hxc, ih hcr]

lemma splitOnChar_append (c : Char) (l₁ l₂ : List Char) (h : c ∉ l₁) :
    splitOnChar c (l₁ ++ c :: l₂) = l₁ :: splitOnChar c l₂ := by
  induction l₁ with
  | nil => simp [splitOnChar]
  | cons x rest ih =>
    have hxc : x ≠ c := fun hh => h (hh ▸ List.mem_cons_self x rest)
    have hcr : c ∉ rest := fun hh => h (List.mem_cons_of_mem x hh)
    simp [splitOnChar, hxc, ih hcr]

lemma parseOneArg_entry (k v : List Char) (hk : ':' ∉ k) (hv : ':' ∉ v) :
    parseOneArg (k ++ ':' :: v) = some (String.mk k, coerceValue (String.mk v)) := by
  unfold parseOneArg
  rw [splitOnChar_append ':' k v hk, splitOnChar_of_not_mem ':' v hv]

/-- Every well-formed `key:value[,key:value...]` rendering parses back to its
entries, each value coerced. -/
lemma parseArgsList_render :
    ∀ (ps : List (String × String)), ps ≠ [] →
      (∀ p ∈ ps, ',' ∉ p.1.data ∧ ':' ∉ p.1.data ∧ ',' ∉ p.2.data ∧ ':' ∉ p.2.data) →
      parseArgsList (splitOnChar ',' (renderArgs ps)) =
        some (ps.map (fun p => (p.1, coerceValue p.2))) := by
  intro ps
  induction ps with
  | nil => intro h; exact absurd rfl h
  | cons p ps ih =>
    intro _ hclean
    obtain ⟨hk1, hk2, hv1, hv2⟩ := hclean p (List.mem_cons_self p ps)
    have hentry : ',' ∉ p.1.data ++ ':' :: p.2.data := by
      intro hmem
      rcases List.mem_append.mp hmem with hh | hh
      · exact hk1 hh
      · rcases List.mem_cons.mp hh with hh' | hh'
        · exact absurd hh' (by decide)
        · exact hv1 hh'
    cases ps with
    | nil =>
      rw [show renderArgs [p] = p.1.data ++ ':' :: p.2.data from rfl]
      rw [splitOnChar_of_not_mem ',' _ hentry]
      simp [parseArgsList, parseOneArg_entry p.1.data p.2.data hk2 hv2]
    | cons q qs =>
      have hren : renderArgs (p :: q :: qs) =
          (p.1.data ++ ':' :: p.2.data) ++ ',' :: renderArgs (q :: qs) := by
        show p.1.data ++ ':' :: p.2.data ++ ',' :: renderArgs (q :: qs) = _
        rw [List.append_assoc]
      rw [hren, splitOnChar_append ',' _ _ hentry]
      have hrest := ih (by simp) (fun r hr => hclean r (List.mem_cons_of_mem p hr))
      simp [parseArgsList, parseOneArg_entry p.1.data p.2.data hk2 hv2, hrest]

lemma mem_ensureDir_self (fs : List String) (d : String) : d ∈ ensureDir fs d := by
  by_cases h : d ∈ fs <;> simp [ensureDir, h]

lemma mem_ensureDir_of_mem (fs : List String) (d x : String) (hx : x ∈ fs) :
    x ∈ ensureDir fs d := by
  by_cases h : d ∈ fs <;> simp [ensureDir, h, hx]

/-- C1: for every well-formed pipeline graph, if the connection-derived
dependency relation is acyclic and every declared input slot of every stage
is bound to a literal or to exactly one Connection then `validate()`
succeeds; if the connection relation has a cycle, `validate()` fails with
`CycleError`; if some stage has an input slot bound to neither a literal nor
a Connection, `validate()` fails with `UnboundInputError`. -/
theorem C1_validate_correct (g : Graph) (hwf : WellFormed g) :
    ((Acyclic g ∧ ∀ st ∈ g.stages, ∀ slot ∈ st.operation.input_slots,
        (∃ q ∈ st.literals, q.1 = slot) ∨
          (g.connections.filter
            (fun c => c.target == st.id && c.targetSlot == slot)).length = 1) →
      validate g = []) ∧
    (HasCycle g → PipeError.cycleError ∈ validate g) ∧
    ((∃ st ∈ g.stages, ∃ slot ∈ st.operation.input_slots, slotBound g st slot = false) →
      PipeError.unboundInputError ∈ validate g) := by
  refine ⟨?_, ?_, ?_⟩
  · rintro ⟨hacyc, hbound⟩
    obtain ⟨order, hord⟩ :=
      Option.isSome_iff_exists.mp (topoOrder_isSome_of_acyclic g hacyc)
    have hall : allBound g = true := by
      unfold allBound
      rw [List.all_eq_true]
      intro st hst
      rw [List.all_eq_true]
      intro slot hslot
      unfold slotBound
      rw [Bool.or_eq_true]
      rcases hbound st hst slot hslot with ⟨q, hq, hq1⟩ | hcount
      · exact Or.inl (List.any_eq_true.mpr ⟨q, hq, beq_iff_eq.mpr hq1⟩)
      · right
        rw [List.any_eq_true]
        have hne : g.connections.filter
            (fun c => c.target == st.id && c.targetSlot == slot) ≠ [] := by
          intro hnil
          rw [hnil] at hcount
          simp at hcount
        obtain ⟨c, hc⟩ := List.exists_mem_of_ne_nil _ hne
        exact ⟨c, (List.mem_filter.mp hc).1, (List.mem_filter.mp hc).2⟩
    simp [validate, hord, hall]
  · intro hcyc
    have hnone : topoOrder g = none := by
      cases h : topoOrder g with
      | none => rfl
      | some order =>
        exact absurd hcyc (acyclic_of_topoOrder_isSome g hwf (by rw [h]; rfl))
    simp [validate, hnone]
  · rintro ⟨st, hst, slot, hslot, hb⟩
    have hall : allBound g = false := by
      cases h : allBound g with
      | false => rfl
      | true =>
        exfalso
        have := List.all_eq_true.mp (List.all_eq_true.mp h st hst) slot hslot
        rw [hb] at this
        exact Bool.false_ne_true this
    cases h : (topoOrder g).isNone <;> simp [validate, h, hall]

/-- C1 witness: the example graph is well-formed, acyclic and fully bound, and
`validate` accepts it. -/
theorem C1_validate_correct_witness : validate gEx = [] :=
  (C1_validate_correct gEx (by decide)).1
    ⟨acyclic_of_topoOrder_isSome gEx (by decide) (by decide), by decide⟩

/-- C4: for every valid (validated) well-formed pipeline graph and every
backend, the Scheduler's execution order exists, covers exactly the stages,
places every Connection's source before its target, is the same for every
backend, and falls back to declaration order when there are no
dependencies. -/
theorem C4_scheduler_topological (g : Graph) (b : Backend) (hwf : WellFormed g)
    (hvalid : validate g = []) :
    ∃ order, schedule b g = some order ∧
      order.Perm (stageIds g) ∧
      (∀ c ∈ g.connections, order.indexOf c.source < order.indexOf c.target) ∧
      (∀ b' : Backend, schedule b' g = some order) ∧
      (g.connections = [] → order = stageIds g) := by
  obtain ⟨order, hord⟩ : ∃ o, topoOrder g = some o := by
    cases h : topoOrder g with
    | none => simp [validate, h] at hvalid
    | some o => exact ⟨o, rfl⟩
  refine ⟨order, hord, kahn_perm (edgeList g) (stageIds g).length (stageIds g) order hord,
    ?_, fun _ => hord, ?_⟩
  · intro c hc
    have hmemE : (c.source, c.target) ∈ edgeList g := List.mem_map_of_mem _ hc
    obtain ⟨h1, h2⟩ := hwf.1 c hc
    exact kahn_respects (edgeList g) (stageIds g).length (stageIds g) order hord
      hwf.2 c.source c.target hmemE h1 h2
  · intro hconn
    have hE : edgeList g = [] := by simp [edgeList, hconn]
    rw [topoOrder, hE, kahn_no_edges (stageIds g).length (stageIds g) (Nat.le_refl _)] at hord
    exact (Option.some.injEq _ _ ▸ hord).symm

/-- C4 witness: the scheduler orders the example graph. -/
theorem C4_scheduler_topological_witness :
    ∃ order, schedule Backend.sequential gEx = some order ∧
      order.Perm (stageIds gEx) ∧
      (∀ c ∈ gEx.connections, order.indexOf c.source < order.indexOf c.target) ∧
      (∀ b' : Backend, schedule b' gEx = some order) ∧
      (gEx.connections = [] → order = stageIds gEx) :=
  C4_scheduler_topological gEx Backend.sequential (by decide) (by decide)

/-- C5: in every run of a valid well-formed graph in which stage `S` ends
`Failed`, every stage reachable from `S` through Connections ends `Blocked`
(hence is never dispatched) and never reaches `Completed`. -/
theorem C5_failure_blocks (g : Graph) (hwf : WellFormed g) (hvalid : validate g = [])
    (fails : Nat → Bool) (S : Nat)
    (hfail : finalStates g fails S = StageState.failed) :
    ∀ t, Relation.TransGen (edgeRel g) S t →
      finalStates g fails t = StageState.blocked ∧
        finalStates g fails t ≠ StageState.completed := by
  obtain ⟨order, hord⟩ : ∃ o, topoOrder g = some o := by
    cases h : topoOrder g with
    | none => simp [validate, h] at hvalid
    | some o => exact ⟨o, rfl⟩
  have key : ∀ u t, edgeRel g u t → finalStates g fails u ≠ StageState.completed →
      finalStates g fails t = StageState.blocked :=
    fun u t he hb => final_blocked_of_dep_not_completed g hwf order hord fails he hb
  intro t ht
  induction ht with
  | @single b h =>
    have hb : finalStates g fails b = StageState.blocked :=
      key S b h (by rw [hfail]; exact fun hh => nomatch hh)
    exact ⟨hb, by rw [hb]; exact fun hh => nomatch hh⟩
  | @tail b c _ h ih =>
    have hb := key b c h ih.2
    exact ⟨hb, by rw [hb]; exact fun hh => nomatch hh⟩

/-- C5 witness: in the example graph, failing stage `0` leaves its dependent
stage `1` `Blocked`, not `Completed`. -/
theorem C5_failure_blocks_witness :
    finalStates gEx failsStage0 1 = StageState.blocked ∧
      finalStates gEx failsStage0 1 ≠ StageState.completed :=
  C5_failure_blocks gEx (by decide) (by decide) failsStage0 0 (by decide) 1
    (Relation.TransGen.single (by decide))

/-- C2: `nested=false` fan-out expansion over iterated slots that all resolve
to lists of length `N` yields exactly `N` elements, element `k` taking
element `k` of every iterated list, in input order; differing lengths fail
with `FanOutArityError`. -/
theorem C2_fanout_zip {α : Type} [Inhabited α] (iters : List (List α)) (N : Nat)
    (hne : iters ≠ []) :
    ((∀ l ∈ iters, l.length = N) →
      ∃ res, zipExpansion iters = Except.ok res ∧ res.length = N ∧
        ∀ k, k < N → res.getD k [] = iters.map (fun m => m.getD k default)) ∧
    ((∃ l₁ ∈ iters, ∃ l₂ ∈ iters, l₁.length ≠ l₂.length) →
      zipExpansion iters = Except.error PipeError.fanOutArityError) := by
  cases iters with
  | nil => exact absurd rfl hne
  | cons l ls =>
    constructor
    · intro hlen
      have hl : l.length = N := hlen l (List.mem_cons_self _ _)
      have hall : ls.all (fun m => m.length == l.length) = true := by
        rw [List.all_eq_true]
        intro m hm
        rw [beq_iff_eq, hlen m (List.mem_cons_of_mem _ hm), hl]
      refine ⟨(List.range l.length).map
          (fun k => (l :: ls).map (fun m => m.getD k default)), ?_, ?_, ?_⟩
      · simp [zipExpansion, hall]
      · rw [List.length_map, List.length_range, hl]
      · intro k hk
        rw [List.getD_eq_getElem _ _ (by rw [List.length_map, List.length_range, hl]; exact hk)]
        rw [List.getElem_map, List.getElem_range]
    · rintro ⟨l₁, h₁, l₂, h₂, hnel⟩
      cases hall : ls.all (fun m => m.length == l.length) with
      | false => simp [zipExpansion, hall]
      | true =>
        exfalso
        have hEq : ∀ m ∈ l :: ls, m.length = l.length := by
          intro m hm
          rcases List.mem_cons.mp hm with h | h
          · rw [h]
          · exact beq_iff_eq.mp (List.all_eq_true.mp hall m h)
        exact hnel ((hEq l₁ h₁).trans (hEq l₂ h₂).symm)

/-- C2 witness: two iterated lists of length 2 expand element-wise. -/
theorem C2_fanout_zip_witness :
    ∃ res, zipExpansion [[10, 20], [30, 40]] = Except.ok res ∧ res.length = 2 ∧
      ∀ k, k < 2 → res.getD k [] = [[10, 20], [30, 40]].map (fun m => m.getD k default) :=
  (C2_fanout_zip [[10, 20], [30, 40]] 2 (by decide)).1 (by decide)

/-- C3: `nested=true` fan-out expansion over two iterated lists of lengths `M`
and `N` yields exactly `M × N` elements, in lexicographic order over the
declared slot order: element `i·N + j` pairs element `i` of the first list
with element `j` of the second. -/
theorem C3_fanout_cross {α : Type} [Inhabited α] (xs ys : List α) :
    (crossExpansion [xs, ys]).length = xs.length * ys.length ∧
    ∀ i j, i < xs.length → j < ys.length →
      (crossExpansion [xs, ys]).getD (i * ys.length + j) [] =
        [xs.getD i default, ys.getD j default] := by
  refine ⟨crossExpansion_pair_length xs ys, ?_⟩
  intro i j hi hj
  rw [crossExpansion_pair]
  exact flatMap_pair_getD ys xs i j hi hj

/-- C3 witness: the cross-product of a 2-list and a 3-list, element (1,2). -/
theorem C3_fanout_cross_witness :
    (crossExpansion [[10, 20], [1, 2, 3]]).getD (1 * 3 + 2) [] =
      [[10, 20].getD 1 default, [1, 2, 3].getD 2 default] :=
  (C3_fanout_cross [10, 20] [1, 2, 3]).2 1 2 (by decide) (by decide)

/-- C6: the Output Sink substitution list has one entry per fan-out element;
entry `r` (0-based) renames that element's artifact with the 1-based,
zero-padded-to-two-digits run index `r + 1`; with three runs the filenames
are suffixed `_run01`, `_run02`, `_run03` in list order. -/
theorem C6_sink_run_index (n : Nat) :
    (substitutions n).length = n ∧
    (∀ r, r < n → (substitutions n).getD r ("", "") =
      ("_merge_epis" ++ toString r ++ "/timeseries_corrected.nii.gz",
        "timeseries_corrected_run" ++ pad2 (r + 1) ++ ".nii.gz")) ∧
    (∀ m, 1 ≤ m → m < 100 → (pad2 m).length = 2) ∧
    substitutions 3 =
      [("_merge_epis0/timeseries_corrected.nii.gz", "timeseries_corrected_run01.nii.gz"),
       ("_merge_epis1/timeseries_corrected.nii.gz", "timeseries_corrected_run02.nii.gz"),
       ("_merge_epis2/timeseries_corrected.nii.gz", "timeseries_corrected_run03.nii.gz")] := by
  refine ⟨?_, ?_, ?_, ?_⟩
  · simp [substitutions]
  · intro r hr
    have hlen : r < (substitutions n).length := by simpa [substitutions] using hr
    rw [List.getD_eq_getElem _ _ hlen]
    simp only [substitutions, List.getElem_map, List.getElem_range]
  · decide
  · decide

/-- C6 witness: the first of three runs is renamed with run index 01. -/
theorem C6_sink_run_index_witness :
    (substitutions 3).getD 0 ("", "") =
      ("_merge_epis" ++ toString 0 ++ "/timeseries_corrected.nii.gz",
        "timeseries_corrected_run" ++ pad2 (0 + 1) ++ ".nii.gz") :=
  (C6_sink_run_index 3).2.1 0 (by decide)

/-- C7: `key:value[,key:value...]` parsing coerces each value to an integer
when possible, else to a float, else keeps the text, as on the claim's
examples; and every well-formed rendered entry list parses back entrywise. -/
theorem C7_plugin_args :
    parsePluginArgs "n_procs:2" = some [("n_procs", PVal.int 2)] ∧
    parsePluginArgs "memory_gb:5.5" = some [("memory_gb", PVal.float (11 / 2))] ∧
    parsePluginArgs "plugin:SLURM" = some [("plugin", PVal.str "SLURM")] ∧
    parsePluginArgs "n_procs:2,memory_gb:5.5" =
      some [("n_procs", PVal.int 2), ("memory_gb", PVal.float (11 / 2))] ∧
    ∀ (ps : List (String × String)), ps ≠ [] →
      (∀ p ∈ ps, ',' ∉ p.1.data ∧ ':' ∉ p.1.data ∧ ',' ∉ p.2.data ∧ ':' ∉ p.2.data) →
      parsePluginArgs (String.mk (renderArgs ps)) =
        some (ps.map (fun p => (p.1, coerceValue p.2))) := by
  have hm : (11 / 2 : Rat) = mkRat 11 2 := by
    rw [Rat.mkRat_eq_div]
    norm_num
  refine ⟨by decide, by rw [hm]; decide, by decide, by rw [hm]; decide, ?_⟩
  intro ps hne hclean
  exact parseArgsList_render ps hne hclean

/-- C7 witness: a rendered two-entry argument string parses back with the
integer and string coercions applied. -/
theorem C7_plugin_args_witness :
    parsePluginArgs (String.mk (renderArgs [("n_procs", "4"), ("status", "ok")])) =
      some ([("n_procs", "4"), ("status", "ok")].map (fun p => (p.1, coerceValue p.2))) :=
  (C7_plugin_args).2.2.2.2 [("n_procs", "4"), ("status", "ok")] (by decide) (by decide)

/-- C8: a Connection declaring `index_select(i)` delivers exactly element `i`
of the source list (the first element for `i = 0`), and the source's
`get_warp` selector coincides with delivery through the explicit
`index_select(0)` Connection on every list. -/
theorem C8_index_select {α : Type} (c : Connection) (i : Nat) (xs : List α)
    (hc : c.combination = Combination.indexSelect i) (hi : i < xs.length) :
    deliverScalar c xs = some (xs.get ⟨i, hi⟩) ∧
    (i = 0 → ∀ (y : α) (ys : List α), deliverScalar c (y :: ys) = some y) ∧
    (∀ ws : List α, get_warp ws = deliverScalar warpConnection ws) := by
  refine ⟨?_, ?_, ?_⟩
  · simp [deliverScalar, hc, List.getElem?_eq_getElem hi]
  · intro h0 y ys
    subst h0
    simp [deliverScalar, hc]
  · intro ws
    simp [get_warp, deliverScalar, warpConnection]

/-- C8 witness: `index_select(0)` on a two-warpfield list delivers the first
warpfield. -/
theorem C8_index_select_witness :
    deliverScalar warpConnection ["warp1.nii.gz", "warp2.nii.gz"] =
      some (["warp1.nii.gz", "warp2.nii.gz"].get ⟨0, by decide⟩) :=
  (C8_index_select warpConnection 0 ["warp1.nii.gz", "warp2.nii.gz"] rfl (by decide)).1

/-- C9: whatever the inputs, TOPUP is configured with exactly six encoding
directions — the phase-encode dimension three times, then its reversed
direction three times — paired with six identical readout times, all 1. -/
theorem C9_topup_encoding (peDim : String) :
    encoding_direction peDim =
      List.replicate 3 peDim ++ List.replicate 3 (peDim ++ "-") ∧
    (encoding_direction peDim).length = 6 ∧
    readout_times = List.replicate 6 1 ∧
    (∀ t ∈ readout_times, t = 1) ∧
    (encoding_direction peDim).length = readout_times.length := by
  have h1 : encoding_direction peDim =
      List.replicate 3 peDim ++ List.replicate 3 (peDim ++ "-") := by
    simp [encoding_direction, npRepeat]
  refine ⟨h1, ?_, by decide, by decide, ?_⟩
  · rw [h1, List.length_append, List.length_replicate, List.length_replicate]
  · rw [h1, List.length_append, List.length_replicate, List.length_replicate]
    rfl

/-- C9 witness: the encoding directions for phase-encode dimension `y`. -/
theorem C9_topup_encoding_witness :
    encoding_direction "y" = List.replicate 3 "y" ++ List.replicate 3 ("y" ++ "-") :=
  (C9_topup_encoding "y").1

/-- C10: with no working-directory argument the working directory equals the
output directory, and after the setup `main` performs before constructing
the workflow, both the output directory and the working directory exist. -/
theorem C10_directories (fs : List String) (outdir : String) (wd : Option String) :
    (wd = none → resolveWorkingDir outdir wd = outdir) ∧
    outdir ∈ setupDirs fs outdir wd ∧
    resolveWorkingDir outdir wd ∈ setupDirs fs outdir wd := by
  refine ⟨?_, ?_, ?_⟩
  · intro h
    subst h
    rfl
  · exact mem_ensureDir_of_mem _ _ _ (mem_ensureDir_self fs outdir)
  · exact mem_ensureDir_self _ _

/-- C10 witness: defaulting and creation on an empty filesystem. -/
theorem C10_directories_witness :
    resolveWorkingDir "out" none = "out" ∧ "out" ∈ setupDirs [] "out" none :=
  ⟨(C10_directories [] "out" none).1 rfl, (C10_directories [] "out" none).2.1⟩

end PrismaPreproc
